import Mathlib

/-!
Shallow embedding of `gh-release-notifier` (`src/main.py`): a single-pass
release watcher.  Text is modelled as `List Char` (Python `str`), timestamps
as `Int` (totally ordered `datetime`), and the two network collaborators
(release fetch, webhook delivery) as oracle functions supplied to the pass.
-/

/-- The `"` character (code 34). -/
def quoteC : Char := Char.ofNat 34

/-- The `\` character (code 92). -/
def backslashC : Char := Char.ofNat 92

/-- The `$` character (code 36), the `string.Template` delimiter. -/
def dollarC : Char := Char.ofNat 36

/-- Opening curly bracket (code 123). -/
def lbraceC : Char := Char.ofNat 123

/-- Closing curly bracket (code 125). -/
def rbraceC : Char := Char.ofNat 125

/-- First character of a `string.Template` identifier: `[_a-zA-Z]`
(Python `Template.idpattern` with the `re.ASCII` flag). -/
def isIdentStart (c : Char) : Bool :=
  c = '_' || ('a' ≤ c && c ≤ 'z') || ('A' ≤ c && c ≤ 'Z')

/-- Continuation character of a `string.Template` identifier: `[_a-zA-Z0-9]`. -/
def isIdentChar (c : Char) : Bool :=
  isIdentStart c || ('0' ≤ c && c ≤ '9')

/-- Longest run of identifier characters at the head of the input, plus the
remaining characters (the maximal-munch behaviour of the `named` regex group). -/
def takeIdent : List Char → List Char × List Char
  | [] => ([], [])
  | c :: rest =>
    if isIdentChar c then
      (c :: (takeIdent rest).1, (takeIdent rest).2)
    else ([], c :: rest)

theorem takeIdent_length (l : List Char) : (takeIdent l).2.length ≤ l.length := by
  induction l with
  | nil => simp [takeIdent]
  | cons c rest ih =>
    simp only [takeIdent]
    split
    · exact Nat.le_succ_of_le ih
    · simp

/-- Recognize `ident}` at the head of the input (the text following `${`):
returns the identifier and the characters after the closing bracket.
Mirrors the `braced` group of `string.Template.pattern`. -/
def matchBraced (l : List Char) : Option (List Char × List Char) :=
  match l with
  | [] => none
  | e :: rest =>
    if isIdentStart e then
      match (takeIdent (e :: rest)).2 with
      | f :: rest2 => if f = rbraceC then some ((takeIdent (e :: rest)).1, rest2) else none
      | [] => none
    else none

theorem matchBraced_length {l : List Char} {p : List Char × List Char}
    (h : matchBraced l = some p) : p.2.length < l.length := by
  match l with
  | [] => simp [matchBraced] at h
  | e :: rest =>
    simp only [matchBraced] at h
    split at h
    · split at h
      next f rest2 heq =>
        split at h
        · cases h
          have h1 : (takeIdent (e :: rest)).2.length ≤ (e :: rest).length :=
            takeIdent_length _
          rw [heq] at h1
          simp only [List.length_cons] at h1 ⊢
          omega
        · cases h
      next heq => cases h
    · cases h

/-- `m k` when present, otherwise the fallback text (used for the
leave-unknown-placeholders-literal behaviour of `safe_substitute`). -/
def valueOr (m : List Char → Option (List Char)) (k : List Char)
    (dflt : List Char) : List Char :=
  match m k with
  | some v => v
  | none => dflt

/-- Fuel-indexed worker for `subst`; the fuel only makes the recursion
structural and is never exhausted when it starts at the input length
(every step consumes at least one input character per unit of fuel). -/
def substFuel (m : List Char → Option (List Char)) : Nat → List Char → List Char
  | _, [] => []
  | 0, l => l
  | fuel + 1, c :: rest =>
    if c = dollarC then
      match rest with
      | [] => [dollarC]
      | d :: rest2 =>
        if d = dollarC then dollarC :: substFuel m fuel rest2
        else if isIdentStart d then
          valueOr m (takeIdent (d :: rest2)).1 (dollarC :: (takeIdent (d :: rest2)).1)
            ++ substFuel m fuel (takeIdent (d :: rest2)).2
        else if d = lbraceC then
          match matchBraced rest2 with
          | some p =>
            valueOr m p.1 (dollarC :: lbraceC :: (p.1 ++ [rbraceC])) ++ substFuel m fuel p.2
          | none => dollarC :: lbraceC :: substFuel m fuel rest2
        else dollarC :: substFuel m fuel (d :: rest2)
    else c :: substFuel m fuel rest

/-- `string.Template(t).safe_substitute(mapping)`: `$$` becomes `$`,
`$ident` and `${ident}` are replaced when `ident` is in the mapping and left
as literal text otherwise, and an invalid `$` occurrence is left as-is with
scanning resuming at the following character.  Never fails. -/
def subst (m : List Char → Option (List Char)) (l : List Char) : List Char :=
  substFuel m l.length l

example : subst (fun k => if k = "tag_name".data then some "v3".data else none)
    "Release ${tag_name}".data = "Release v3".data := by decide

example : subst (fun k => if k = "tag_name".data then some "v3".data else none)
    "Hi ${missing}".data = "Hi ${missing}".data := by decide

example : subst (fun k => if k = "x".data then some "1".data else none)
    "$x $$y $".data = "1 $y $".data := by decide

/-- Lowercase hexadecimal digit for `n < 16` (the `%04x` formatting used by
`json.dumps` for control-character escapes). -/
def hexDigitChar : Nat → Char
  | 0 => '0' | 1 => '1' | 2 => '2' | 3 => '3' | 4 => '4'
  | 5 => '5' | 6 => '6' | 7 => '7' | 8 => '8' | 9 => '9'
  | 10 => 'a' | 11 => 'b' | 12 => 'c' | 13 => 'd' | 14 => 'e'
  | _ => 'f'

/-- How `json.dumps(·, ensure_ascii=False)` renders one character inside a
string literal: `"` and `\` get a backslash, the five short control escapes
are used for 8/9/10/12/13, any other character below 0x20 becomes `\u00XX`
(lowercase hex), and everything else — including all non-ASCII — is kept
literally. -/
def escapeChar (c : Char) : List Char :=
  if c = quoteC then [backslashC, quoteC]
  else if c = backslashC then [backslashC, backslashC]
  else if c = Char.ofNat 8 then [backslashC, 'b']
  else if c = Char.ofNat 9 then [backslashC, 't']
  else if c = Char.ofNat 10 then [backslashC, 'n']
  else if c = Char.ofNat 12 then [backslashC, 'f']
  else if c = Char.ofNat 13 then [backslashC, 'r']
  else if c.toNat < 32 then
    [backslashC, 'u', '0', '0', hexDigitChar (c.toNat / 16), hexDigitChar (c.toNat % 16)]
  else [c]

/-- `escapeChar` applied across a string. -/
def escapeChars : List Char → List Char
  | [] => []
  | c :: rest => escapeChar c ++ escapeChars rest

/-- `json.dumps(s, ensure_ascii=False, allow_nan=False)` for a string value:
the escaped body between enclosing double quotes. -/
def dumps (s : List Char) : List Char := quoteC :: (escapeChars s ++ [quoteC])

/-- `escape` from `src/main.py`: the JSON string literal produced by
`json.dumps(s, ensure_ascii=False, allow_nan=False)` with the enclosing
quotes (`o[1:-1]`) stripped. -/
def escape (s : List Char) : List Char := ((dumps s).drop 1).dropLast

theorem escape_eq (s : List Char) : escape s = escapeChars s := by
  simp [escape, dumps]

/-- Modelled from the spec: value of one hexadecimal digit in a JSON `\uXXXX`
escape (the JSON-parsing side of the escaping round-trip is external to the
program, so it is modelled from the JSON string grammar, RFC 8259). -/
def decodeHexDigit (c : Char) : Option Nat :=
  if '0' ≤ c ∧ c ≤ '9' then some (c.toNat - 48)
  else if 'a' ≤ c ∧ c ≤ 'f' then some (c.toNat - 87)
  else if 'A' ≤ c ∧ c ≤ 'F' then some (c.toNat - 55)
  else none

/-- Modelled from the spec: reads the four hex digits of a JSON `\uXXXX`
escape, returning the code unit and the remaining input. -/
def readUnicodeEscape (l : List Char) : Option (Nat × List Char) :=
  match l with
  | h1 :: h2 :: h3 :: h4 :: rest =>
    match decodeHexDigit h1, decodeHexDigit h2, decodeHexDigit h3, decodeHexDigit h4 with
    | some a, some b, some c, some d => some (a * 4096 + b * 256 + c * 16 + d, rest)
    | _, _, _, _ => none
  | _ => none

/-- Modelled from the spec: decodes the scalar value of a `\uXXXX` escape
(input starts right after the `u`), consuming a second `\uXXXX` when the
first code unit is a high surrogate; a lone surrogate is rejected. -/
def readUnicodePoint (l : List Char) : Option (Nat × List Char) :=
  match readUnicodeEscape l with
  | some q =>
    if q.1 < 0xD800 ∨ 0xDFFF < q.1 then some (q.1, q.2)
    else if q.1 ≤ 0xDBFF then
      match q.2 with
      | b1 :: b2 :: rest3 =>
        if b1 = backslashC then
          if b2 = 'u' then
            match readUnicodeEscape rest3 with
            | some q2 =>
              if 0xDC00 ≤ q2.1 ∧ q2.1 ≤ 0xDFFF then
                some (0x10000 + (q.1 - 0xD800) * 0x400 + (q2.1 - 0xDC00), q2.2)
              else none
            | none => none
          else none
        else none
      | _ => none
    else none
  | none => none

/-- `readUnicodePoint` with the decoded scalar value turned into a `Char`. -/
def readUnicodeSeq (l : List Char) : Option (Char × List Char) :=
  match readUnicodePoint l with
  | some q => some (Char.ofNat q.1, q.2)
  | none => none

/-- Modelled from the spec: decodes one JSON string escape sequence (the
input starts right after the backslash). -/
def readEscape : List Char → Option (Char × List Char)
  | [] => none
  | e :: rest =>
    if e = quoteC then some (quoteC, rest)
    else if e = backslashC then some (backslashC, rest)
    else if e = '/' then some ('/', rest)
    else if e = 'b' then some (Char.ofNat 8, rest)
    else if e = 'f' then some (Char.ofNat 12, rest)
    else if e = 'n' then some (Char.ofNat 10, rest)
    else if e = 'r' then some (Char.ofNat 13, rest)
    else if e = 't' then some (Char.ofNat 9, rest)
    else if e = 'u' then readUnicodeSeq rest
    else none

theorem readUnicodeEscape_length {l : List Char} {q : Nat × List Char}
    (h : readUnicodeEscape l = some q) : q.2.length + 4 = l.length := by
  match l with
  | [] => simp [readUnicodeEscape] at h
  | [_] => simp [readUnicodeEscape] at h
  | [_, _] => simp [readUnicodeEscape] at h
  | [_, _, _] => simp [readUnicodeEscape] at h
  | h1 :: h2 :: h3 :: h4 :: rest =>
    simp only [readUnicodeEscape] at h
    split at h
    · cases h; simp
    · cases h

theorem readUnicodePoint_length {l : List Char} {q : Nat × List Char}
    (h : readUnicodePoint l = some q) : q.2.length < l.length := by
  simp only [readUnicodePoint] at h
  split at h
  next q1 hq1 =>
    have h1 := readUnicodeEscape_length hq1
    split at h
    · cases h; show q1.2.length < l.length; omega
    · split at h
      · split at h
        next b1 b2 rest3 heq =>
          split at h
          · split at h
            · split at h
              next q2 hq2 =>
                have h2 := readUnicodeEscape_length hq2
                split at h
                · rw [Option.some_inj] at h
                  cases h
                  rw [heq] at h1
                  simp only [List.length_cons] at h1
                  show q2.2.length < l.length
                  omega
                · cases h
              next => cases h
            · cases h
          · cases h
        next => cases h
      · cases h
  next => cases h

theorem readUnicodeSeq_length {l : List Char} {q : Char × List Char}
    (h : readUnicodeSeq l = some q) : q.2.length < l.length := by
  simp only [readUnicodeSeq] at h
  split at h
  next q1 hq1 =>
    cases h
    exact readUnicodePoint_length hq1
  next => cases h

theorem readEscape_length {l : List Char} {q : Char × List Char}
    (h : readEscape l = some q) : q.2.length < l.length := by
  match l with
  | [] => simp [readEscape] at h
  | e :: rest =>
    simp only [readEscape] at h
    split_ifs at h
    case _ => cases h; simp
    case _ => cases h; simp
    case _ => cases h; simp
    case _ => cases h; simp
    case _ => cases h; simp
    case _ => cases h; simp
    case _ => cases h; simp
    case _ => cases h; simp
    case _ =>
      have := readUnicodeSeq_length h
      simp only [List.length_cons]
      omega

/-- Fuel-indexed worker for `decodeBody`; fuel is never exhausted when it
starts at the input length. -/
def decodeBodyFuel : Nat → List Char → Option (List Char × List Char)
  | _, [] => none
  | 0, _ => none
  | fuel + 1, c :: rest =>
    if c = quoteC then some ([], rest)
    else if c = backslashC then
      match readEscape rest with
      | some q => (decodeBodyFuel fuel q.2).map (fun p => (q.1 :: p.1, p.2))
      | none => none
    else if c.toNat < 32 then none
    else (decodeBodyFuel fuel rest).map (fun p => (c :: p.1, p.2))

/-- Modelled from the spec: parses the body of a JSON string literal up to
and including the closing quote, returning the decoded content and the
remaining input.  Unescaped control characters are rejected, per the JSON
string grammar. -/
def decodeBody (l : List Char) : Option (List Char × List Char) :=
  decodeBodyFuel l.length l

/-- Modelled from the spec: parses a complete JSON string literal — opening
quote, body, closing quote, nothing after. -/
def decodeJsonString (l : List Char) : Option (List Char) :=
  match l with
  | [] => none
  | c :: rest =>
    if c = quoteC then
      match decodeBody rest with
      | some p => if p.2 = [] then some p.1 else none
      | none => none
    else none

example : decodeJsonString (dumps "a\"b\\c\n∀".data) = some "a\"b\\c\n∀".data := by decide

theorem decodeHexDigit_hexDigitChar : ∀ d : Fin 16,
    decodeHexDigit (hexDigitChar d.val) = some d.val := by decide

theorem decodeBodyFuel_congr : ∀ (f1 f2 : Nat) (l : List Char),
    l.length ≤ f1 → l.length ≤ f2 → decodeBodyFuel f1 l = decodeBodyFuel f2 l := by
  intro f1
  induction f1 with
  | zero =>
    intro f2 l h1 _
    have hl : l = [] := by
      cases l
      · rfl
      · simp at h1
    subst hl
    cases f2 <;> rfl
  | succ f ih =>
    intro f2 l h1 h2
    cases l with
    | nil => cases f2 <;> rfl
    | cons c rest =>
      simp only [List.length_cons] at h1 h2
      obtain ⟨g, rfl⟩ : ∃ g, f2 = g + 1 := ⟨f2 - 1, by omega⟩
      simp only [decodeBodyFuel]
      split_ifs
      · rfl
      · split
        next q hq =>
          have := readEscape_length hq
          rw [ih g q.2 (by omega) (by omega)]
        next => rfl
      · rfl
      · rw [ih g rest (by omega) (by omega)]

theorem decodeBody_backslash {tail : List Char} {c : Char} {rest : List Char}
    (h : readEscape tail = some (c, rest)) :
    decodeBody (backslashC :: tail) = (decodeBody rest).map (fun p => (c :: p.1, p.2)) := by
  have hlen : rest.length < tail.length := readEscape_length h
  rw [show decodeBody (backslashC :: tail) =
      (match readEscape tail with
       | some q => (decodeBodyFuel tail.length q.2).map (fun p => (q.1 :: p.1, p.2))
       | none => none) from rfl, h]
  show (decodeBodyFuel tail.length rest).map (fun p => (c :: p.1, p.2)) = _
  rw [decodeBodyFuel_congr tail.length rest.length rest (by omega) (le_refl _)]
  rfl

theorem decodeBody_plain {c : Char} (rest : List Char) (h1 : c ≠ quoteC)
    (h2 : c ≠ backslashC) (h3 : 32 ≤ c.toNat) :
    decodeBody (c :: rest) = (decodeBody rest).map (fun p => (c :: p.1, p.2)) := by
  show decodeBodyFuel (rest.length + 1) (c :: rest) = _
  simp only [decodeBodyFuel]
  rw [if_neg h1, if_neg h2, if_neg (by omega : ¬ c.toNat < 32)]
  rfl

theorem readUnicodeEscape_00xy (a : Char) (rest : List Char) (h : a.toNat < 32) :
    readUnicodeEscape ('0' :: '0' :: hexDigitChar (a.toNat / 16) ::
      hexDigitChar (a.toNat % 16) :: rest) = some (a.toNat, rest) := by
  have hd1 := decodeHexDigit_hexDigitChar ⟨a.toNat / 16, by omega⟩
  have hd2 := decodeHexDigit_hexDigitChar ⟨a.toNat % 16, by omega⟩
  simp only [readUnicodeEscape]
  rw [show decodeHexDigit '0' = some 0 from by decide, hd1, hd2]
  show some (0 * 4096 + 0 * 256 + a.toNat / 16 * 16 + a.toNat % 16, rest) = _
  rw [show 0 * 4096 + 0 * 256 + a.toNat / 16 * 16 + a.toNat % 16 = a.toNat from by omega]

theorem readUnicodePoint_low {l rest : List Char} {n : Nat} (hn : n < 55296)
    (h : readUnicodeEscape l = some (n, rest)) : readUnicodePoint l = some (n, rest) := by
  unfold readUnicodePoint
  rw [h]
  show (if n < 55296 ∨ 57343 < n then some (n, rest) else _) = some (n, rest)
  rw [if_pos (Or.inl hn)]

theorem readUnicodeSeq_low {l rest : List Char} {n : Nat} (hn : n < 55296)
    (h : readUnicodeEscape l = some (n, rest)) :
    readUnicodeSeq l = some (Char.ofNat n, rest) := by
  unfold readUnicodeSeq
  rw [readUnicodePoint_low hn h]

theorem readEscape_u (a : Char) (rest : List Char) (h : a.toNat < 32) :
    readEscape ('u' :: '0' :: '0' :: hexDigitChar (a.toNat / 16) ::
      hexDigitChar (a.toNat % 16) :: rest) = some (a, rest) := by
  simp only [readEscape]
  rw [if_neg (by decide : ¬ ('u' = quoteC)), if_neg (by decide : ¬ ('u' = backslashC)),
    if_neg (by decide : ¬ ('u' = '/')), if_neg (by decide : ¬ ('u' = 'b')),
    if_neg (by decide : ¬ ('u' = 'f')), if_neg (by decide : ¬ ('u' = 'n')),
    if_neg (by decide : ¬ ('u' = 'r')), if_neg (by decide : ¬ ('u' = 't')),
    if_pos trivial,
    readUnicodeSeq_low (by omega) (readUnicodeEscape_00xy a rest h),
    Char.ofNat_toNat]

theorem decodeBody_escapeChar (a : Char) (rest : List Char) :
    decodeBody (escapeChar a ++ rest) = (decodeBody rest).map (fun p => (a :: p.1, p.2)) := by
  unfold escapeChar
  split_ifs with h1 h2 h3 h4 h5 h6 h7 h8
  · subst h1
    exact decodeBody_backslash (show readEscape (quoteC :: rest) = some (quoteC, rest) from rfl)
  · subst h2
    exact decodeBody_backslash
      (show readEscape (backslashC :: rest) = some (backslashC, rest) from rfl)
  · subst h3
    exact decodeBody_backslash
      (show readEscape ('b' :: rest) = some (Char.ofNat 8, rest) from rfl)
  · subst h4
    exact decodeBody_backslash
      (show readEscape ('t' :: rest) = some (Char.ofNat 9, rest) from rfl)
  · subst h5
    exact decodeBody_backslash
      (show readEscape ('n' :: rest) = some (Char.ofNat 10, rest) from rfl)
  · subst h6
    exact decodeBody_backslash
      (show readEscape ('f' :: rest) = some (Char.ofNat 12, rest) from rfl)
  · subst h7
    exact decodeBody_backslash
      (show readEscape ('r' :: rest) = some (Char.ofNat 13, rest) from rfl)
  · exact decodeBody_backslash (readEscape_u a rest h8)
  · exact decodeBody_plain rest h1 h2 (by omega)

theorem decodeBody_escapeChars (s : List Char) : ∀ rest : List Char,
    decodeBody (escapeChars s ++ rest) = (decodeBody rest).map (fun p => (s ++ p.1, p.2)) := by
  induction s with
  | nil =>
    intro rest
    show decodeBody rest = _
    cases decodeBody rest <;> simp
  | cons a s ih =>
    intro rest
    show decodeBody ((escapeChar a ++ escapeChars s) ++ rest) = _
    rw [List.append_assoc, decodeBody_escapeChar a (escapeChars s ++ rest), ih rest]
    cases decodeBody rest <;> simp

theorem decodeJsonString_dumps (s : List Char) : decodeJsonString (dumps s) = some s := by
  show decodeJsonString (quoteC :: (escapeChars s ++ [quoteC])) = some s
  simp only [decodeJsonString]
  rw [if_pos trivial, decodeBody_escapeChars s [quoteC],
    show decodeBody [quoteC] = some ([], ([] : List Char)) from rfl]
  simp

/-- One fetched release: the PyGithub `GitRelease` fields `main.py` reads. -/
structure Release where
  id : Int
  html_url : List Char
  tag_name : List Char
  name : Option (List Char)
  published_at : Int
  draft : Bool
  body : Option (List Char)
deriving DecidableEq

/-- Python `x or y` for an optional string: `None` and the empty string are
both falsy and select the fallback. -/
def pyOr (a : Option (List Char)) (b : List Char) : List Char :=
  match a with
  | none => b
  | some s => if s = [] then b else s

/-- The pydantic `State` model: the snapshot persisted per repository. -/
structure State where
  id : Int
  html_url : List Char
  tag_name : List Char
  name : List Char
  published_at : Int
deriving DecidableEq

/-- Insertion-ordered string-keyed map modelling the Python dict
`state_file.states`. -/
abbrev StateMap := List (List Char × State)

/-- `states.get(k)`. -/
def lookupState (k : List Char) : StateMap → Option State
  | [] => none
  | (k2, v) :: rest => if k2 = k then some v else lookupState k rest

/-- `states[k] = v`: replaces the value in place when the key exists,
appends otherwise (Python dict assignment preserves insertion order). -/
def insertState (k : List Char) (v : State) : StateMap → StateMap
  | [] => [(k, v)]
  | (k2, v2) :: rest =>
    if k2 = k then (k2, v) :: rest else (k2, v2) :: insertState k v rest

/-- The pydantic `Webhook` model. -/
structure Webhook where
  url : List Char
  content : Option (List Char)
  data : Option (List (List Char × List Char))
  headers : Option (List (List Char × List Char))
deriving DecidableEq

/-- The resolved settings fields the pass reads (`repos`, `skip_draft`,
`webhook`; the state-file path and timezone are handled by the run oracles). -/
structure Settings where
  repos : List (List Char)
  skip_draft : Bool
  webhook : Option Webhook
deriving DecidableEq

/-- Why a fetch raised: repository without releases (PyGithub raises
not-found) or any other API failure.  `main.py` catches neither. -/
inductive FetchErr
  | notFound
  | transient
deriving DecidableEq

/-- One outbound request as handed to `httpx.post`. -/
structure Notification where
  url : List Char
  content : Option (List Char)
  data : Option (List (List Char × List Char))
  headers : Option (List (List Char × List Char))
deriving DecidableEq

/-- The fixed variable set passed to `safe_substitute` (main.py 138–146).
`fmtTime` models `published_at.astimezone(tz).isoformat()`. -/
def templateVars (repoName : List Char) (rel : Release)
    (fmtTime : Int → List Char) : List Char → Option (List Char) := fun v =>
  if v = "repo_name".data then some repoName
  else if v = "id".data then some (toString rel.id).data
  else if v = "html_url".data then some rel.html_url
  else if v = "tag_name".data then some rel.tag_name
  else if v = "name".data then some (escape (pyOr rel.name rel.tag_name))
  else if v = "published_at".data then some (fmtTime rel.published_at)
  else if v = "body".data then some (escape (pyOr rel.body []))
  else none

/-- Rendering and sink selection for one new-release event (main.py
130–146): no webhook → nothing sent; otherwise the content template, when
present and non-empty, is rendered with `safe_substitute` over the fixed
variable set, and the static data/headers are passed through. -/
def mkNotif (cfg : Settings) (fmtTime : Int → List Char) (repoName : List Char)
    (rel : Release) : Option Notification :=
  match cfg.webhook with
  | none => none
  | some wh =>
    let content := match wh.content with
      | none => none
      | some t =>
        if t = [] then some t else some (subst (templateVars repoName rel fmtTime) t)
    some { url := wh.url, content := content, data := wh.data, headers := wh.headers }

/-- The snapshot written into `state_file.states[repo_name]` (main.py
113–119), `name` falling back to the tag via Python `or`. -/
def snapshotOf (rel : Release) : State :=
  { id := rel.id, html_url := rel.html_url, tag_name := rel.tag_name,
    name := pyOr rel.name rel.tag_name, published_at := rel.published_at }

/-- Loop body for one repository after a successful fetch (main.py 106–146):
draft filter, state update, monotonicity comparison, notification
construction.  Returns the updated map and the notification, if any. -/
def processRepo (cfg : Settings) (fmtTime : Int → List Char)
    (repoName : List Char) (rel : Release) (states : StateMap) :
    StateMap × Option Notification :=
  if cfg.skip_draft && rel.draft then (states, none)
  else
    let prev := lookupState repoName states
    let states2 := insertState repoName (snapshotOf rel) states
    match prev with
    | some p =>
      if rel.published_at ≤ p.published_at then (states2, none)
      else (states2, mkNotif cfg fmtTime repoName rel)
    | none => (states2, mkNotif cfg fmtTime repoName rel)

/-- The `for repo_name in cfg.repos` loop (main.py 102–159).  `fetch` models
`g.get_repo(...).get_latest_release()`, with `Except.error` for a raised
exception — which the loop does not catch, so it aborts the whole pass.
`deliver` models the outcome of `httpx.post` + `raise_for_status`; its
failure is caught (main.py 148–159), only logged, and recorded here in the
result list alongside each attempted notification. -/
def runPass (cfg : Settings) (fmtTime : Int → List Char)
    (fetch : List Char → Except FetchErr Release) (deliver : Notification → Bool) :
    List (List Char) → StateMap →
    Except FetchErr (StateMap × List (Notification × Bool))
  | [], states => .ok (states, [])
  | repoName :: rest, states =>
    match fetch repoName with
    | .error e => .error e
    | .ok rel =>
      let pr := processRepo cfg fmtTime repoName rel states
      let sent := match pr.2 with
        | none => ([] : List (Notification × Bool))
        | some n => [(n, deliver n)]
      match runPass cfg fmtTime fetch deliver rest pr.1 with
      | .error e => .error e
      | .ok p => .ok (p.1, sent ++ p.2)

/-- A run-aborting failure: unparseable state file, or an uncaught fetch
exception. -/
inductive RunErr
  | corrupt
  | fetchFailed (e : FetchErr)
deriving DecidableEq

/-- Content of the configured state file at run start. -/
inductive StateFileInput
  | absent
  | unparseable
  | parsed (states : StateMap)
deriving DecidableEq

/-- main.py 95–100: absent file → empty map (normal first run); a present
file that does not parse into the `StateFile` model raises before the loop;
otherwise the stored map. -/
def loadState : StateFileInput → Except RunErr StateMap
  | .absent => .ok []
  | .unparseable => .error .corrupt
  | .parsed s => .ok s

/-- `mainRun` models the whole `main()` pass (Lean reserves the name `main` for an executable entry point): load state, process every configured repository
in order, save.  An `ok` result carries the state-file content written at
the end (main.py 161–164) plus the attempted notifications with their
delivery outcomes; an `error` result models an uncaught exception — the
save never runs. -/
def mainRun (cfg : Settings) (fmtTime : Int → List Char)
    (fetch : List Char → Except FetchErr Release) (deliver : Notification → Bool)
    (input : StateFileInput) : Except RunErr (StateMap × List (Notification × Bool)) :=
  match loadState input with
  | .error e => .error e
  | .ok s0 =>
    match runPass cfg fmtTime fetch deliver cfg.repos s0 with
    | .error e => .error (.fetchFailed e)
    | .ok res => .ok res

theorem lookupState_insertState_self (k : List Char) (v : State) (s : StateMap) :
    lookupState k (insertState k v s) = some v := by
  induction s with
  | nil => simp [insertState, lookupState]
  | cons kv rest ih =>
    obtain ⟨k2, v2⟩ := kv
    simp only [insertState]
    by_cases h : k2 = k
    · simp [lookupState, h]
    · simp [lookupState, h, ih]

theorem lookupState_insertState_ne (k k2 : List Char) (v : State) (s : StateMap)
    (h : k ≠ k2) : lookupState k2 (insertState k v s) = lookupState k2 s := by
  induction s with
  | nil =>
    simp only [insertState, lookupState]
    rw [if_neg h]
  | cons kv rest ih =>
    obtain ⟨k3, v3⟩ := kv
    simp only [insertState]
    by_cases h3 : k3 = k
    · subst h3
      simp [lookupState, h]
    · simp only [if_neg h3, lookupState]
      by_cases h4 : k3 = k2
      · simp [h4]
      · simp [h4, ih]

theorem insertState_eq_self (k : List Char) (v : State) (s : StateMap)
    (h : lookupState k s = some v) : insertState k v s = s := by
  induction s with
  | nil => simp [lookupState] at h
  | cons kv rest ih =>
    obtain ⟨k2, v2⟩ := kv
    simp only [lookupState] at h
    simp only [insertState]
    by_cases h2 : k2 = k
    · simp only [if_pos h2] at h ⊢
      cases h
      rfl
    · simp only [if_neg h2] at h ⊢
      rw [ih h]

theorem processRepo_fst (cfg : Settings) (fmtTime : Int → List Char)
    (repoName : List Char) (rel : Release) (states : StateMap)
    (h : (cfg.skip_draft && rel.draft) = false) :
    (processRepo cfg fmtTime repoName rel states).1 =
      insertState repoName (snapshotOf rel) states := by
  simp only [processRepo, h]
  split
  next h2 => exact absurd h2 (by simp)
  next =>
    cases hx : lookupState repoName states
    · rfl
    · dsimp only
      split <;> rfl

/-- What the pass stores for repository `r` when it reaches it: nothing when
the fetch raises or the release is a skipped draft, the snapshot otherwise. -/
def storedVal (cfg : Settings) (fetch : List Char → Except FetchErr Release)
    (r : List Char) : Option State :=
  match fetch r with
  | .error _ => none
  | .ok rel => if cfg.skip_draft && rel.draft then none else some (snapshotOf rel)

theorem runPass_ok_fetch (cfg : Settings) (fmtTime : Int → List Char)
    (fetch : List Char → Except FetchErr Release) (deliver : Notification → Bool) :
    ∀ (repos : List (List Char)) (s : StateMap)
      (res : StateMap × List (Notification × Bool)),
      runPass cfg fmtTime fetch deliver repos s = .ok res →
      ∀ r ∈ repos, (fetch r).isOk = true := by
  intro repos
  induction repos with
  | nil => intro s res _ r hr; simp at hr
  | cons r0 rest ih =>
    intro s res h r hr
    rcases hf : fetch r0 with e | rel
    · simp [runPass, hf] at h
    · rcases List.mem_cons.mp hr with h1 | h2
      · subst h1
        simp [hf, Except.isOk, Except.toBool]
      · simp only [runPass, hf] at h
        rcases hrec : runPass cfg fmtTime fetch deliver rest
            (processRepo cfg fmtTime r0 rel s).1 with e2 | p
        · rw [hrec] at h
          simp at h
        · exact ih _ p hrec r h2

theorem runPass_lookup (cfg : Settings) (fmtTime : Int → List Char)
    (fetch : List Char → Except FetchErr Release) (deliver : Notification → Bool) :
    ∀ (repos : List (List Char)) (s s2 : StateMap) (ns : List (Notification × Bool)),
      runPass cfg fmtTime fetch deliver repos s = .ok (s2, ns) →
      ∀ r, lookupState r s2 =
        if r ∈ repos ∧ (storedVal cfg fetch r).isSome = true then storedVal cfg fetch r
        else lookupState r s := by
  intro repos
  induction repos with
  | nil =>
    intro s s2 ns h r
    simp only [runPass] at h
    cases h
    simp
  | cons r0 rest ih =>
    intro s s2 ns h r
    rcases hf : fetch r0 with e | rel
    · simp [runPass, hf] at h
    · simp only [runPass, hf] at h
      rcases hrec : runPass cfg fmtTime fetch deliver rest
          (processRepo cfg fmtTime r0 rel s).1 with e2 | p
      · rw [hrec] at h
        simp at h
      · rw [hrec] at h
        cases h
        have hr0 := ih _ p.1 p.2 (by rw [hrec]) r
        by_cases hdraft : (cfg.skip_draft && rel.draft) = true
        · have hpr : (processRepo cfg fmtTime r0 rel s).1 = s := by
            simp [processRepo, hdraft]
          rw [hpr] at hr0
          have hsv : storedVal cfg fetch r0 = none := by
            simp [storedVal, hf, hdraft]
          rw [hr0]
          by_cases hrr : r = r0
          · subst hrr
            simp [hsv]
          · simp [List.mem_cons, hrr]
        · have hdf : (cfg.skip_draft && rel.draft) = false := by
            cases hcc : cfg.skip_draft && rel.draft
            · rfl
            · exact absurd hcc hdraft
          have hpr := processRepo_fst cfg fmtTime r0 rel s hdf
          rw [hpr] at hr0
          have hsv : storedVal cfg fetch r0 = some (snapshotOf rel) := by
            simp [storedVal, hf, hdf]
          rw [hr0]
          by_cases hrr : r = r0
          · subst hrr
            rw [hsv]
            by_cases hmem : r ∈ rest
            · simp [hmem, hsv]
            · simp [hmem, hsv, lookupState_insertState_self]
          · rw [lookupState_insertState_ne r0 r _ s (Ne.symm hrr)]
            simp [List.mem_cons, hrr]

theorem runPass_stable (cfg : Settings) (fmtTime : Int → List Char)
    (fetch : List Char → Except FetchErr Release) (deliver : Notification → Bool) :
    ∀ (repos : List (List Char)) (s : StateMap),
      (∀ r ∈ repos, (fetch r).isOk = true) →
      (∀ r ∈ repos, ∀ v, storedVal cfg fetch r = some v → lookupState r s = some v) →
      runPass cfg fmtTime fetch deliver repos s = .ok (s, []) := by
  intro repos
  induction repos with
  | nil =>
    intro s _ _
    rfl
  | cons r0 rest ih =>
    intro s hok hst
    have h0 := hok r0 (List.mem_cons_self r0 rest)
    rcases hf : fetch r0 with e | rel
    · rw [hf] at h0
      simp [Except.isOk, Except.toBool] at h0
    · have hpr : processRepo cfg fmtTime r0 rel s = (s, none) := by
        by_cases hdraft : (cfg.skip_draft && rel.draft) = true
        · simp [processRepo, hdraft]
        · have hdf : (cfg.skip_draft && rel.draft) = false := by
            cases hcc : cfg.skip_draft && rel.draft
            · rfl
            · exact absurd hcc hdraft
          have hsv : storedVal cfg fetch r0 = some (snapshotOf rel) := by
            simp [storedVal, hf, hdf]
          have hlk := hst r0 (List.mem_cons_self r0 rest) _ hsv
          simp only [processRepo, hdf]
          split
          next h2 => exact absurd h2 (by simp)
          next =>
            rw [hlk]
            dsimp only
            rw [if_pos (show rel.published_at ≤ (snapshotOf rel).published_at from le_refl _),
              insertState_eq_self r0 (snapshotOf rel) s hlk]
      simp only [runPass, hf, hpr]
      rw [ih s (fun r hr => hok r (List.mem_cons_of_mem r0 hr))
        (fun r hr v hv => hst r (List.mem_cons_of_mem r0 hr) v hv)]
      simp

/-- Fixture webhook: a sink with a content template. -/
def whX : Webhook :=
  { url := "wh".data, content := some "Release ${tag_name}".data,
    data := none, headers := none }

/-- Fixture release: published (non-draft) v3. -/
def relX : Release :=
  { id := 7, html_url := "h".data, tag_name := "v3".data, name := some "Name".data,
    published_at := 5, draft := false, body := some "b".data }

/-- Fixture settings: one repository, drafts skipped, webhook configured. -/
def cfgX : Settings :=
  { repos := ["a/b".data], skip_draft := true, webhook := some whX }

/-- Fixture fetch oracle: every repository yields `relX`. -/
def fetchX : List Char → Except FetchErr Release := fun _ => .ok relX

/-- Fixture delivery oracle: every post succeeds. -/
def deliverT : Notification → Bool := fun _ => true

/-- Fixture timestamp renderer. -/
def fmtX : Int → List Char := fun _ => "2024-01-01T00:00:00+00:00".data

/-- C1 counterexample: with an empty state store, one configured repository
and a configured webhook, the run records the snapshot but ALSO renders and
dispatches a notification — `prev_state` is `None`, so the
`prev_state and prev_state.published_at >= release.published_at` guard in
`main.py` is falsy and control falls through to the notification block.  The
claim's "no notification is rendered or dispatched" is false here. -/
theorem c1_counterexample :
    mainRun cfgX fmtX fetchX deliverT .absent =
      .ok ([("a/b".data,
            { id := 7, html_url := "h".data, tag_name := "v3".data,
              name := "Name".data, published_at := 5 })],
        [({ url := "wh".data, content := some "Release v3".data,
            data := none, headers := none }, true)]) := by
  rfl

/-- C1 (amended): for a repository with no prior StateEntry whose fetch
succeeds with a non-skipped release, the snapshot is recorded into the
StateMap and — unlike the claim's "silent first observation" — the release
is treated as new: a notification is produced exactly when a webhook sink is
configured. -/
theorem c1_first_observation_notifies (cfg : Settings) (fmtTime : Int → List Char)
    (repoName : List Char) (rel : Release) (states : StateMap)
    (h1 : lookupState repoName states = none)
    (h2 : (cfg.skip_draft && rel.draft) = false) :
    processRepo cfg fmtTime repoName rel states =
      (insertState repoName (snapshotOf rel) states, mkNotif cfg fmtTime repoName rel) ∧
    ((mkNotif cfg fmtTime repoName rel).isSome ↔ cfg.webhook.isSome) := by
  constructor
  · simp only [processRepo, h2]
    split
    next hh => exact absurd hh (by simp)
    next => rw [h1]
  · cases hw : cfg.webhook <;> simp [mkNotif, hw]

/-- Witness for `c1_first_observation_notifies` at a concrete input. -/
theorem c1_first_observation_notifies_witness :
    lookupState "a/b".data [] = none ∧ (cfgX.skip_draft && relX.draft) = false ∧
    (processRepo cfgX fmtX "a/b".data relX [] =
      (insertState "a/b".data (snapshotOf relX) [], mkNotif cfgX fmtX "a/b".data relX) ∧
    ((mkNotif cfgX fmtX "a/b".data relX).isSome ↔ cfgX.webhook.isSome)) :=
  ⟨rfl, rfl, c1_first_observation_notifies cfgX fmtX "a/b".data relX [] rfl rfl⟩

/-- Fixture fetch oracle whose first repository raises not-found while the
second would succeed. -/
def fetchFail1 : List Char → Except FetchErr Release :=
  fun r => if r = "a/b".data then .error .notFound else .ok relX

/-- Fixture settings with two repositories. -/
def cfg2 : Settings :=
  { repos := ["a/b".data, "c/d".data], skip_draft := true, webhook := some whX }

/-- C2 counterexample: the first repository's fetch raises; `main.py` has no
try/except around `get_latest_release()`, so the exception propagates: the
run ends in an error — the second repository (whose fetch would succeed) is
never processed and the final state save never happens, contradicting the
claim's "processing of every subsequent repository still occurs, and the
final state save still happens". -/
theorem c2_counterexample :
    mainRun cfg2 fmtX fetchFail1 deliverT .absent = .error (.fetchFailed .notFound) ∧
    fetchFail1 "c/d".data = .ok relX := ⟨rfl, rfl⟩

/-- C2 (amended): when the pass reaches a repository whose fetch fails (for
not-found or any other reason), no notification is sent for it and its
stored entry is not overwritten — but not because the failure is logged and
skipped: the uncaught exception aborts the whole pass, so no subsequent
repository is processed and the final state save never happens. -/
theorem c2_fetch_failure_aborts (cfg : Settings) (fmtTime : Int → List Char)
    (fetch : List Char → Except FetchErr Release) (deliver : Notification → Bool)
    (r : List Char) (rest : List (List Char)) (states : StateMap) (e : FetchErr)
    (h : fetch r = .error e) :
    runPass cfg fmtTime fetch deliver (r :: rest) states = .error e := by
  simp [runPass, h]

/-- Witness for `c2_fetch_failure_aborts` at a concrete input. -/
theorem c2_fetch_failure_aborts_witness :
    fetchFail1 "a/b".data = .error .notFound ∧
    runPass cfg2 fmtX fetchFail1 deliverT ["a/b".data, "c/d".data] [] =
      .error .notFound :=
  ⟨rfl, c2_fetch_failure_aborts cfg2 fmtX fetchFail1 deliverT "a/b".data
    ["c/d".data] [] .notFound rfl⟩

/-- C3: with a prior StateEntry `p` and a fetched non-skipped release, the
stored entry is refreshed to the current snapshot in every case, and a
notification is produced iff the current `published_at` is strictly newer
than the prior one (`prev.published_at >= release.published_at` ⇒ skip). -/
theorem c3_monotonicity (cfg : Settings) (fmtTime : Int → List Char)
    (repoName : List Char) (rel : Release) (states : StateMap) (p : State)
    (wh : Webhook) (hprev : lookupState repoName states = some p)
    (hdraft : (cfg.skip_draft && rel.draft) = false)
    (hwh : cfg.webhook = some wh) :
    (processRepo cfg fmtTime repoName rel states).1 =
      insertState repoName (snapshotOf rel) states ∧
    ((processRepo cfg fmtTime repoName rel states).2.isSome = true ↔
      p.published_at < rel.published_at) := by
  refine ⟨processRepo_fst cfg fmtTime repoName rel states hdraft, ?_⟩
  simp only [processRepo, hdraft]
  split
  next hh => exact absurd hh (by simp)
  next =>
    rw [hprev]
    dsimp only
    by_cases hle : rel.published_at ≤ p.published_at
    · rw [if_pos hle]
      simp only [Option.isSome_none]
      constructor
      · intro hh
        cases hh
      · intro hh
        omega
    · rw [if_neg hle]
      simp only [mkNotif, hwh, Option.isSome_some]
      constructor
      · intro _
        omega
      · intro _
        trivial

/-- Fixture prior entry: same repository, strictly older `published_at`. -/
def prevOld : State :=
  { id := 1, html_url := "h0".data, tag_name := "v1".data, name := "v1".data,
    published_at := 3 }

/-- Witness for `c3_monotonicity` at a concrete input. -/
theorem c3_monotonicity_witness :
    lookupState "a/b".data [("a/b".data, prevOld)] = some prevOld ∧
    (cfgX.skip_draft && relX.draft) = false ∧ cfgX.webhook = some whX ∧
    ((processRepo cfgX fmtX "a/b".data relX [("a/b".data, prevOld)]).1 =
      insertState "a/b".data (snapshotOf relX) [("a/b".data, prevOld)] ∧
    ((processRepo cfgX fmtX "a/b".data relX [("a/b".data, prevOld)]).2.isSome = true ↔
      prevOld.published_at < relX.published_at)) :=
  ⟨rfl, rfl, rfl,
    c3_monotonicity cfgX fmtX "a/b".data relX [("a/b".data, prevOld)] prevOld whX
      rfl rfl rfl⟩

/-- C4: when `skip_draft` is enabled and the fetched release is a draft, the
loop `continue`s before touching state: the StateMap is returned unchanged
(whatever it held for this repository) and no notification is produced. -/
theorem c4_draft_skipped (cfg : Settings) (fmtTime : Int → List Char)
    (repoName : List Char) (rel : Release) (states : StateMap)
    (h1 : cfg.skip_draft = true) (h2 : rel.draft = true) :
    processRepo cfg fmtTime repoName rel states = (states, none) := by
  simp [processRepo, h1, h2]

/-- Fixture draft release. -/
def relDraft : Release :=
  { id := 9, html_url := "hd".data, tag_name := "v4".data, name := none,
    published_at := 9, draft := true, body := none }

/-- Witness for `c4_draft_skipped` at a concrete input with a prior entry. -/
theorem c4_draft_skipped_witness :
    cfgX.skip_draft = true ∧ relDraft.draft = true ∧
    processRepo cfgX fmtX "a/b".data relDraft [("a/b".data, prevOld)] =
      ([("a/b".data, prevOld)], none) :=
  ⟨rfl, rfl, c4_draft_skipped cfgX fmtX "a/b".data relDraft [("a/b".data, prevOld)] rfl rfl⟩

/-- The parts of a pass result that the delivery outcomes could have
influenced if a failure were not swallowed: error status, final StateMap,
and which notifications were attempted (outcome flags dropped). -/
def passOutcome (res : Except FetchErr (StateMap × List (Notification × Bool))) :
    Except FetchErr (StateMap × List Notification) :=
  res.map (fun p => (p.1, p.2.map Prod.fst))

theorem runPass_deliver_irrelevant (cfg : Settings) (fmtTime : Int → List Char)
    (fetch : List Char → Except FetchErr Release) (d1 d2 : Notification → Bool) :
    ∀ (repos : List (List Char)) (s : StateMap),
      passOutcome (runPass cfg fmtTime fetch d1 repos s) =
        passOutcome (runPass cfg fmtTime fetch d2 repos s) := by
  intro repos
  induction repos with
  | nil =>
    intro s
    rfl
  | cons r0 rest ih =>
    intro s
    rcases hf : fetch r0 with e | rel
    · simp [runPass, hf]
    · simp only [runPass, hf]
      have hih := ih (processRepo cfg fmtTime r0 rel s).1
      rcases h1 : runPass cfg fmtTime fetch d1 rest (processRepo cfg fmtTime r0 rel s).1
        with e1 | p1 <;>
        rcases h2 : runPass cfg fmtTime fetch d2 rest (processRepo cfg fmtTime r0 rel s).1
          with e2 | p2 <;>
        simp [passOutcome, Except.map, h1, h2] at hih ⊢
      · exact hih
      · refine ⟨hih.1, ?_⟩
        rcases hn : (processRepo cfg fmtTime r0 rel s).2 with _ | n <;> simp [hn, hih.2]

/-- C5: delivery failure is swallowed: the pass's error status, its final
StateMap (so the release stays recorded as seen), and the set of attempted
notifications are identical under any two delivery oracles — a failing
`httpx.post` can neither abort the pass, nor block later repositories, nor
undo the state update; and whenever the pass completes, every successfully
fetched non-draft release is stored, regardless of delivery outcomes. -/
theorem c5_delivery_failure_isolated (cfg : Settings) (fmtTime : Int → List Char)
    (fetch : List Char → Except FetchErr Release) (d1 d2 : Notification → Bool)
    (repos : List (List Char)) (states : StateMap) :
    passOutcome (runPass cfg fmtTime fetch d1 repos states) =
      passOutcome (runPass cfg fmtTime fetch d2 repos states) ∧
    (∀ s2 ns, runPass cfg fmtTime fetch d1 repos states = .ok (s2, ns) →
      ∀ r v, r ∈ repos → storedVal cfg fetch r = some v → lookupState r s2 = some v) := by
  constructor
  · exact runPass_deliver_irrelevant cfg fmtTime fetch d1 d2 repos states
  · intro s2 ns h r v hr hv
    rw [runPass_lookup cfg fmtTime fetch d1 repos states s2 ns h r,
      if_pos ⟨hr, by rw [hv]; rfl⟩, hv]

/-- Fixture always-failing delivery oracle. -/
def deliverF : Notification → Bool := fun _ => false

/-- The notification the fixture run renders for `relX`. -/
def notifX : Notification :=
  { url := "wh".data, content := some "Release v3".data, data := none, headers := none }

/-- Witness for `c5_delivery_failure_isolated` at a concrete input (inner
hypotheses discharged at the concrete run with failing delivery). -/
theorem c5_delivery_failure_isolated_witness :
    passOutcome (runPass cfgX fmtX fetchX deliverF ["a/b".data] []) =
      passOutcome (runPass cfgX fmtX fetchX deliverT ["a/b".data] []) ∧
    lookupState "a/b".data [("a/b".data, snapshotOf relX)] = some (snapshotOf relX) :=
  ⟨(c5_delivery_failure_isolated cfgX fmtX fetchX deliverF deliverT ["a/b".data] []).1,
    (c5_delivery_failure_isolated cfgX fmtX fetchX deliverF deliverT ["a/b".data] []).2
      [("a/b".data, snapshotOf relX)] [(notifX, false)] rfl "a/b".data
      (snapshotOf relX) (by simp) rfl⟩

/-- C6: `escape` agrees with encoding the string as a JSON string literal
and stripping the enclosing quotes (definitionally, via `json.dumps`), and
the round-trip holds for every string: re-enclosing the escaped value in
double quotes and parsing it as a JSON string literal yields the original
string unchanged — so backslashes, quotes, control characters, and
non-ASCII text survive embedding in a JSON payload template. -/
theorem c6_escape_roundtrip (s : List Char) :
    quoteC :: (escape s ++ [quoteC]) = dumps s ∧
    decodeJsonString (quoteC :: (escape s ++ [quoteC])) = some s := by
  constructor
  · rw [escape_eq]
    rfl
  · rw [escape_eq]
    exact decodeJsonString_dumps s

/-- C9: state loading — an absent file yields the empty StateMap (a normal
first run, not an error); an unparseable file makes the whole run fail with
the corrupt-state error before any repository is processed (the result does
not depend on the fetch or delivery oracles at all, and nothing is saved). -/
theorem c9_state_load (cfg : Settings) (fmtTime : Int → List Char)
    (f1 f2 : List Char → Except FetchErr Release) (d1 d2 : Notification → Bool) :
    loadState .absent = .ok ([] : StateMap) ∧
    mainRun cfg fmtTime f1 d1 .unparseable = .error .corrupt ∧
    mainRun cfg fmtTime f1 d1 .unparseable = mainRun cfg fmtTime f2 d2 .unparseable :=
  ⟨rfl, rfl, rfl⟩

/-- C10: a release whose `name` is the empty string (not only a missing
name) falls back to `tag_name` both in the stored StateEntry and in the
`name` template variable, because Python `or` treats `""` as falsy. -/
theorem c10_empty_name_falls_back (repoName : List Char) (rel : Release)
    (fmtTime : Int → List Char) (h : rel.name = some []) :
    (snapshotOf rel).name = rel.tag_name ∧
    templateVars repoName rel fmtTime "name".data = some (escape rel.tag_name) := by
  constructor
  · simp [snapshotOf, pyOr, h]
  · unfold templateVars
    rw [if_neg (by decide), if_neg (by decide), if_neg (by decide), if_neg (by decide),
      if_pos rfl]
    simp [pyOr, h]

/-- Fixture release with an empty-string name. -/
def relEmptyName : Release :=
  { id := 3, html_url := "h3".data, tag_name := "v9".data, name := some [],
    published_at := 4, draft := false, body := none }

/-- Witness for `c10_empty_name_falls_back` at a concrete input. -/
theorem c10_empty_name_falls_back_witness :
    relEmptyName.name = some [] ∧
    ((snapshotOf relEmptyName).name = relEmptyName.tag_name ∧
    templateVars "a/b".data relEmptyName fmtX "name".data =
      some (escape relEmptyName.tag_name)) :=
  ⟨rfl, c10_empty_name_falls_back "a/b".data relEmptyName fmtX rfl⟩

theorem takeIdent_all (l : List Char) (b : Char) (r : List Char)
    (hall : l.all isIdentChar = true) (hb : isIdentChar b = false) :
    takeIdent (l ++ b :: r) = (l, b :: r) := by
  induction l with
  | nil => simp [takeIdent, hb]
  | cons c rest ih =>
    simp only [List.all_cons, Bool.and_eq_true] at hall
    simp only [List.cons_append]
    simp [takeIdent, hall.1, ih hall.2]

/-- A valid `string.Template` identifier: non-empty, `[_a-zA-Z]` head,
`[_a-zA-Z0-9]` tail. -/
def isValidIdent (l : List Char) : Bool :=
  match l with
  | [] => false
  | c :: rest => isIdentStart c && rest.all isIdentChar

/-- The template text `${ident}`. -/
def bracedT (ident : List Char) : List Char :=
  dollarC :: lbraceC :: (ident ++ [rbraceC])

theorem matchBraced_valid (ident : List Char) (r : List Char)
    (h : isValidIdent ident = true) :
    matchBraced (ident ++ rbraceC :: r) = some (ident, r) := by
  match ident with
  | [] => simp [isValidIdent] at h
  | c :: rest =>
    simp only [isValidIdent, Bool.and_eq_true] at h
    have hcall : (c :: rest).all isIdentChar = true := by
      simp only [List.all_cons, Bool.and_eq_true]
      exact ⟨by simp [isIdentChar, h.1], h.2⟩
    have hrb : isIdentChar rbraceC = false := by decide
    have ht := takeIdent_all (c :: rest) rbraceC r hcall hrb
    simp only [List.cons_append] at ht ⊢
    simp [matchBraced, h.1, ht]

theorem subst_braced (m : List Char → Option (List Char)) (ident : List Char)
    (h : isValidIdent ident = true) :
    subst m (bracedT ident) = valueOr m ident (bracedT ident) := by
  unfold subst bracedT
  rw [show (dollarC :: lbraceC :: (ident ++ [rbraceC])).length = ident.length + 2 + 1 from by
    simp]
  rw [show substFuel m (ident.length + 2 + 1) (dollarC :: lbraceC :: (ident ++ [rbraceC])) =
      (match matchBraced (ident ++ [rbraceC]) with
       | some p => valueOr m p.1 (dollarC :: lbraceC :: (p.1 ++ [rbraceC])) ++
           substFuel m (ident.length + 2) p.2
       | none => dollarC :: lbraceC :: substFuel m (ident.length + 2) (ident ++ [rbraceC]))
      from rfl,
    matchBraced_valid ident [] h]
  dsimp only
  rw [show substFuel m (ident.length + 2) [] = [] from rfl, List.append_nil]

theorem substFuel_cons (m : List Char → Option (List Char)) (fuel : Nat) (c : Char)
    (t : List Char) :
    substFuel m (fuel + 1) (c :: t) =
      (if c = dollarC then
        match t with
        | [] => [dollarC]
        | d :: rest2 =>
          if d = dollarC then dollarC :: substFuel m fuel rest2
          else if isIdentStart d then
            valueOr m (takeIdent (d :: rest2)).1 (dollarC :: (takeIdent (d :: rest2)).1)
              ++ substFuel m fuel (takeIdent (d :: rest2)).2
          else if d = lbraceC then
            match matchBraced rest2 with
            | some p =>
              valueOr m p.1 (dollarC :: lbraceC :: (p.1 ++ [rbraceC])) ++ substFuel m fuel p.2
            | none => dollarC :: lbraceC :: substFuel m fuel rest2
          else dollarC :: substFuel m fuel (d :: rest2)
      else c :: substFuel m fuel t) := rfl

theorem substFuel_congr (m : List Char → Option (List Char)) :
    ∀ (f1 f2 : Nat) (l : List Char),
      l.length ≤ f1 → l.length ≤ f2 → substFuel m f1 l = substFuel m f2 l := by
  intro f1
  induction f1 with
  | zero =>
    intro f2 l h1 _
    have hl : l = [] := by
      cases l
      · rfl
      · simp at h1
    subst hl
    cases f2 <;> rfl
  | succ f ih =>
    intro f2 l h1 h2
    cases l with
    | nil => cases f2 <;> rfl
    | cons c rest =>
      simp only [List.length_cons] at h1 h2
      obtain ⟨g, rfl⟩ : ∃ g, f2 = g + 1 := ⟨f2 - 1, by omega⟩
      rw [substFuel_cons m f c rest, substFuel_cons m g c rest]
      by_cases hc : c = dollarC
      · rw [if_pos hc, if_pos hc]
        cases rest with
        | nil => rfl
        | cons d rest2 =>
          simp only [List.length_cons] at h1 h2
          dsimp only
          by_cases hd : d = dollarC
          · rw [if_pos hd, if_pos hd, ih g rest2 (by omega) (by omega)]
          · rw [if_neg hd, if_neg hd]
            by_cases hi : isIdentStart d = true
            · have hti : (takeIdent (d :: rest2)).2.length ≤ rest2.length + 1 := by
                simpa using takeIdent_length (d :: rest2)
              rw [if_pos hi, if_pos hi,
                ih g (takeIdent (d :: rest2)).2 (by omega) (by omega)]
            · rw [if_neg hi, if_neg hi]
              by_cases hb : d = lbraceC
              · rw [if_pos hb, if_pos hb]
                rcases hmb : matchBraced rest2 with _ | p
                · dsimp only
                  rw [ih g rest2 (by omega) (by omega)]
                · dsimp only
                  have := matchBraced_length hmb
                  rw [ih g p.2 (by omega) (by omega)]
              · rw [if_neg hb, if_neg hb,
                  ih g (d :: rest2) (by simp only [List.length_cons]; omega)
                    (by simp only [List.length_cons]; omega)]
      · rw [if_neg hc, if_neg hc, ih g rest (by omega) (by omega)]

/-- Whether a string starts with a `string.Template` identifier character
(so a maximal-munch `$ident` placeholder would keep munching into it). -/
def headIsIdentChar : List Char → Bool
  | [] => false
  | c :: _ => isIdentChar c

theorem takeIdent_all_gen (l t : List Char) (hall : l.all isIdentChar = true)
    (ht : headIsIdentChar t = false) : takeIdent (l ++ t) = (l, t) := by
  induction l with
  | nil =>
    simp only [List.nil_append]
    cases t with
    | nil => rfl
    | cons c r =>
      simp only [headIsIdentChar] at ht
      simp [takeIdent, ht]
  | cons c rest ih =>
    simp only [List.all_cons, Bool.and_eq_true] at hall
    simp only [List.cons_append]
    simp [takeIdent, hall.1, ih hall.2]

/-- Literal template text: contains no `$`, so `safe_substitute` copies it
verbatim. -/
def dollarFree : List Char → Bool
  | [] => true
  | c :: rest => if c = dollarC then false else dollarFree rest

theorem subst_cons_plain (m : List Char → Option (List Char)) (c : Char)
    (t : List Char) (h : ¬ c = dollarC) : subst m (c :: t) = c :: subst m t := by
  show substFuel m (t.length + 1) (c :: t) = _
  rw [substFuel_cons, if_neg h]
  rfl

theorem subst_lit_append (m : List Char → Option (List Char)) :
    ∀ (s t : List Char), dollarFree s = true → subst m (s ++ t) = s ++ subst m t := by
  intro s
  induction s with
  | nil =>
    intro t _
    simp [subst]
  | cons c rest ih =>
    intro t h
    simp only [dollarFree] at h
    by_cases hc : c = dollarC
    · rw [if_pos hc] at h
      cases h
    · rw [if_neg hc] at h
      show subst m (c :: (rest ++ t)) = _
      rw [subst_cons_plain m c (rest ++ t) hc, ih t h]
      rfl

theorem subst_escaped_step (m : List Char → Option (List Char)) (t : List Char) :
    subst m (dollarC :: dollarC :: t) = dollarC :: subst m t := by
  show substFuel m (t.length + 1 + 1) (dollarC :: dollarC :: t) = _
  rw [substFuel_cons, if_pos rfl]
  dsimp only
  rw [if_pos rfl, substFuel_congr m (t.length + 1) t.length t (by omega) (le_refl _)]
  rfl

theorem subst_named_step (m : List Char → Option (List Char)) (ident t : List Char)
    (h : isValidIdent ident = true) (ht : headIsIdentChar t = false) :
    subst m ((dollarC :: ident) ++ t) = valueOr m ident (dollarC :: ident) ++ subst m t := by
  match ident with
  | [] => simp [isValidIdent] at h
  | a :: as =>
    simp only [isValidIdent, Bool.and_eq_true] at h
    have hall : (a :: as).all isIdentChar = true := by
      simp only [List.all_cons, Bool.and_eq_true]
      exact ⟨by simp [isIdentChar, h.1], h.2⟩
    have hti := takeIdent_all_gen (a :: as) t hall ht
    rw [List.cons_append] at hti
    have ha_ne : ¬ (a = dollarC) := by
      intro hh
      rw [hh] at h
      exact absurd h.1 (by decide)
    show substFuel m ((dollarC :: (a :: as)) ++ t).length ((dollarC :: (a :: as)) ++ t) = _
    rw [show ((dollarC :: (a :: as)) ++ t).length = ((as ++ t).length + 1) + 1 from by
      simp]
    rw [show (dollarC :: (a :: as)) ++ t = dollarC :: a :: (as ++ t) from by simp]
    rw [substFuel_cons, if_pos rfl]
    dsimp only
    rw [if_neg ha_ne, if_pos h.1, hti]
    dsimp only
    rw [substFuel_congr m ((as ++ t).length + 1) t.length t
      (by simp only [List.length_append]; omega) (le_refl _)]
    rfl

theorem subst_braced_step (m : List Char → Option (List Char)) (ident t : List Char)
    (h : isValidIdent ident = true) :
    subst m (bracedT ident ++ t) = valueOr m ident (bracedT ident) ++ subst m t := by
  show substFuel m (bracedT ident ++ t).length (bracedT ident ++ t) = _
  rw [show (bracedT ident ++ t).length = (ident.length + t.length + 2) + 1 from by
    simp [bracedT]
    omega]
  rw [show bracedT ident ++ t = dollarC :: lbraceC :: (ident ++ rbraceC :: t) from by
    simp [bracedT]]
  rw [show substFuel m ((ident.length + t.length + 2) + 1)
      (dollarC :: lbraceC :: (ident ++ rbraceC :: t)) =
      (match matchBraced (ident ++ rbraceC :: t) with
       | some p => valueOr m p.1 (dollarC :: lbraceC :: (p.1 ++ [rbraceC])) ++
           substFuel m (ident.length + t.length + 2) p.2
       | none => dollarC :: lbraceC :: substFuel m (ident.length + t.length + 2)
           (ident ++ rbraceC :: t)) from rfl,
    matchBraced_valid ident t h]
  dsimp only
  rw [substFuel_congr m (ident.length + t.length + 2) t.length t (by omega) (le_refl _)]
  rfl

/-- One segment of a content template: a `$`-free literal run, the escaped
delimiter `$$`, a named placeholder `$ident`, or a braced placeholder
`${ident}`.  Every template built from literal text and placeholders is a
list of these. -/
inductive TmplSeg where
  | lit (s : List Char)
  | escaped
  | named (ident : List Char)
  | braced (ident : List Char)
deriving DecidableEq

/-- The template text of one segment. -/
def segText : TmplSeg → List Char
  | .lit s => s
  | .escaped => [dollarC, dollarC]
  | .named i => dollarC :: i
  | .braced i => bracedT i

/-- The template text of a whole segment list. -/
def tmplText : List TmplSeg → List Char
  | [] => []
  | seg :: rest => segText seg ++ tmplText rest

/-- Well-formed segment list: literal runs are `$`-free, placeholder names
are valid identifiers, and a named (unbraced) placeholder is not followed
directly by an identifier character (which maximal munch would swallow into
the name). -/
def segsWF : List TmplSeg → Bool
  | [] => true
  | .lit s :: rest => dollarFree s && segsWF rest
  | .escaped :: rest => segsWF rest
  | .named i :: rest =>
    isValidIdent i && !headIsIdentChar (tmplText rest) && segsWF rest
  | .braced i :: rest => isValidIdent i && segsWF rest

/-- What `safe_substitute` produces for a segment list: literal runs pass
through, `$$` collapses to `$`, and each placeholder becomes the mapped
value when its name is in the mapping and stays as its own literal
placeholder text otherwise (`valueOr`). -/
def tmplRender (m : List Char → Option (List Char)) : List TmplSeg → List Char
  | [] => []
  | .lit s :: rest => s ++ tmplRender m rest
  | .escaped :: rest => dollarC :: tmplRender m rest
  | .named i :: rest => valueOr m i (dollarC :: i) ++ tmplRender m rest
  | .braced i :: rest => valueOr m i (bracedT i) ++ tmplRender m rest

theorem subst_tmpl (m : List Char → Option (List Char)) :
    ∀ segs : List TmplSeg, segsWF segs = true →
      subst m (tmplText segs) = tmplRender m segs := by
  intro segs
  induction segs with
  | nil =>
    intro _
    rfl
  | cons seg rest ih =>
    intro h
    cases seg with
    | lit s =>
      simp only [segsWF, Bool.and_eq_true] at h
      show subst m (s ++ tmplText rest) = s ++ tmplRender m rest
      rw [subst_lit_append m s (tmplText rest) h.1, ih h.2]
    | escaped =>
      simp only [segsWF] at h
      show subst m (dollarC :: dollarC :: tmplText rest) = dollarC :: tmplRender m rest
      rw [subst_escaped_step m (tmplText rest), ih h]
    | named i =>
      simp only [segsWF, Bool.and_eq_true] at h
      have hhead : headIsIdentChar (tmplText rest) = false := by
        have := h.1.2
        revert this
        cases headIsIdentChar (tmplText rest) <;> simp
      show subst m ((dollarC :: i) ++ tmplText rest) =
        valueOr m i (dollarC :: i) ++ tmplRender m rest
      rw [subst_named_step m i (tmplText rest) h.1.1 hhead, ih h.2]
    | braced i =>
      simp only [segsWF, Bool.and_eq_true] at h
      show subst m (bracedT i ++ tmplText rest) =
        valueOr m i (bracedT i) ++ tmplRender m rest
      rw [subst_braced_step m i (tmplText rest) h.1, ih h.2]

/-- C7: safe substitution on every configured content template.  Any
template made of literal text, `$$`, and placeholders — decomposed as a
well-formed segment list — renders without failing: literal text passes
through verbatim, and each placeholder (named or braced, anywhere in the
template, any number of them) becomes the variable's value when its name is
one of the seven fixed variables and is left as its literal placeholder text
otherwise. -/
theorem c7_safe_substitution (repoName : List Char) (rel : Release)
    (fmtTime : Int → List Char) (segs : List TmplSeg)
    (h : segsWF segs = true) :
    subst (templateVars repoName rel fmtTime) (tmplText segs) =
      tmplRender (templateVars repoName rel fmtTime) segs :=
  subst_tmpl (templateVars repoName rel fmtTime) segs h

/-- Witness for `c7_safe_substitution` at concrete inputs: the spec's own
scenarios — `"Release ${tag_name}"` renders to `"Release v3"`, a named
`$tag_name` placeholder with a literal suffix renders too, and
`"Hi ${missing}"` comes back unchanged. -/
theorem c7_safe_substitution_witness :
    segsWF [TmplSeg.lit "Release ".data, TmplSeg.braced "tag_name".data] = true ∧
    tmplText [TmplSeg.lit "Release ".data, TmplSeg.braced "tag_name".data] =
      "Release ${tag_name}".data ∧
    subst (templateVars "a/b".data relX fmtX)
        (tmplText [TmplSeg.lit "Release ".data, TmplSeg.braced "tag_name".data]) =
      tmplRender (templateVars "a/b".data relX fmtX)
        [TmplSeg.lit "Release ".data, TmplSeg.braced "tag_name".data] ∧
    tmplRender (templateVars "a/b".data relX fmtX)
      [TmplSeg.lit "Release ".data, TmplSeg.braced "tag_name".data] =
      "Release v3".data ∧
    segsWF [TmplSeg.named "tag_name".data, TmplSeg.lit "!".data] = true ∧
    subst (templateVars "a/b".data relX fmtX)
        (tmplText [TmplSeg.named "tag_name".data, TmplSeg.lit "!".data]) =
      tmplRender (templateVars "a/b".data relX fmtX)
        [TmplSeg.named "tag_name".data, TmplSeg.lit "!".data] ∧
    tmplRender (templateVars "a/b".data relX fmtX)
      [TmplSeg.named "tag_name".data, TmplSeg.lit "!".data] = "v3!".data ∧
    segsWF [TmplSeg.lit "Hi ".data, TmplSeg.braced "missing".data] = true ∧
    subst (templateVars "a/b".data relX fmtX)
        (tmplText [TmplSeg.lit "Hi ".data, TmplSeg.braced "missing".data]) =
      tmplRender (templateVars "a/b".data relX fmtX)
        [TmplSeg.lit "Hi ".data, TmplSeg.braced "missing".data] ∧
    tmplRender (templateVars "a/b".data relX fmtX)
      [TmplSeg.lit "Hi ".data, TmplSeg.braced "missing".data] = "Hi ${missing}".data :=
  ⟨by decide, by decide,
    c7_safe_substitution "a/b".data relX fmtX
      [TmplSeg.lit "Release ".data, TmplSeg.braced "tag_name".data] (by decide),
    by decide, by decide,
    c7_safe_substitution "a/b".data relX fmtX
      [TmplSeg.named "tag_name".data, TmplSeg.lit "!".data] (by decide),
    by decide, by decide,
    c7_safe_substitution "a/b".data relX fmtX
      [TmplSeg.lit "Hi ".data, TmplSeg.braced "missing".data] (by decide),
    by decide⟩

/-- C8: idempotence.  If a run completes (saving StateMap `s1`), then a
second run over the same configuration and the same fetch results, loading
the state the first run saved, saves an identical StateMap and dispatches
zero notifications: every stored entry already carries the fetched
`published_at`, so each comparison takes the `>=`-skip branch and each
in-place re-insert leaves the map unchanged. -/
theorem c8_idempotent (cfg : Settings) (fmtTime : Int → List Char)
    (fetch : List Char → Except FetchErr Release) (deliver : Notification → Bool)
    (input : StateFileInput) (s1 : StateMap) (n1 : List (Notification × Bool))
    (h : mainRun cfg fmtTime fetch deliver input = .ok (s1, n1)) :
    mainRun cfg fmtTime fetch deliver (.parsed s1) = .ok (s1, []) := by
  unfold mainRun at h ⊢
  rcases hload : loadState input with e | s0
  · rw [hload] at h
    exact absurd h (by simp)
  · simp only [hload] at h
    rcases hrun : runPass cfg fmtTime fetch deliver cfg.repos s0 with e | res
    · rw [hrun] at h
      exact absurd h (by simp)
    · simp only [hrun, Except.ok.injEq] at h
      subst h
      have hfetch := runPass_ok_fetch cfg fmtTime fetch deliver cfg.repos s0 (s1, n1) hrun
      have hstable := runPass_stable cfg fmtTime fetch deliver cfg.repos s1 hfetch
        (fun r hr v hv => by
          rw [runPass_lookup cfg fmtTime fetch deliver cfg.repos s0 s1 n1 hrun r,
            if_pos ⟨hr, by rw [hv]; rfl⟩, hv])
      simp only [loadState, hstable]

/-- The state the fixture first run saves. -/
def stateX1 : StateMap := [("a/b".data, snapshotOf relX)]

/-- Witness for `c8_idempotent` at a concrete input: the fixture first run
notifies once and saves `stateX1`; the second run is silent and keeps it. -/
theorem c8_idempotent_witness :
    mainRun cfgX fmtX fetchX deliverT .absent = .ok (stateX1, [(notifX, true)]) ∧
    mainRun cfgX fmtX fetchX deliverT (.parsed stateX1) = .ok (stateX1, []) :=
  ⟨rfl, c8_idempotent cfgX fmtX fetchX deliverT .absent stateX1 [(notifX, true)] rfl⟩
